import Mathlib

/-!
Verification of the engine orchestration and analysis-caching pipeline of the
chess-analysis repository (`server/lib/stockfish.ts` and
`server/routes/analyze.ts`).

Strings are modelled as `List Char`; the engine's stdout is modelled as a list
of already-decoded text chunks (the `TextDecoder` byte layer is I/O).  The
JavaScript string operations used by the source (`trim`, `startsWith`,
`includes`, `split`, and the three `exec` calls on the regular expressions
`\bdepth\s+(\d+)`, `\bscore\s+cp\s+(-?\d+)` and `\bscore\s+mate\s+(-?\d+)`)
are given executable models below.
-/

/-- The whitespace class used by JavaScript `trim`, `\s` and `split(/\s+/)`:
ASCII whitespace plus the Unicode space separators, line separators and BOM. -/
def jsWhitespace (c : Char) : Bool :=
  c == ' ' || c == '\t' || c == '\n' || c == '\r' ||
  c.toNat == 0x0b || c.toNat == 0x0c || c.toNat == 0xa0 ||
  c.toNat == 0x1680 || (0x2000 ≤ c.toNat && c.toNat ≤ 0x200a) ||
  c.toNat == 0x2028 || c.toNat == 0x2029 || c.toNat == 0x202f ||
  c.toNat == 0x205f || c.toNat == 0x3000 || c.toNat == 0xfeff

/-- JavaScript `\w` / word-boundary class: `[A-Za-z0-9_]`. -/
def wordChar (c : Char) : Bool :=
  c.isAlpha || c.isDigit || c == '_'

/-- JavaScript `String.prototype.trim`. -/
def jsTrim (s : List Char) : List Char :=
  ((s.dropWhile jsWhitespace).reverse.dropWhile jsWhitespace).reverse

/-- JavaScript `String.prototype.startsWith`. -/
def startsWithStr : List Char → List Char → Bool
  | [], _ => true
  | _ :: _, [] => false
  | p :: ps, c :: cs => p == c && startsWithStr ps cs

/-- JavaScript `String.prototype.includes` (substring containment). -/
def containsStr (pat : List Char) : List Char → Bool
  | [] => startsWithStr pat []
  | c :: rest => startsWithStr pat (c :: rest) || containsStr pat rest

/-- Consume an exact literal, returning the remaining characters. -/
def eatLit : List Char → List Char → Option (List Char)
  | [], s => some s
  | _ :: _, [] => none
  | p :: ps, c :: cs => if p == c then eatLit ps cs else none

/-- Consume `\s+` (greedy; the follow set of every use is disjoint from
whitespace, so greedy matching is exact). -/
def eatWs1 : List Char → Option (List Char)
  | [] => none
  | c :: rest =>
    if jsWhitespace c then some (rest.dropWhile jsWhitespace) else none

/-- Numeric value of a digit string (JavaScript `parseInt(_, 10)` on a capture
that is known to consist of decimal digits). -/
def natOfDigits (ds : List Char) : Nat :=
  ds.foldl (fun n c => 10 * n + (c.toNat - '0'.toNat)) 0

/-- Consume `(\d+)` at the current position and return its numeric value. -/
def eatNatAt (s : List Char) : Option Nat :=
  let ds := s.takeWhile Char.isDigit
  if ds.isEmpty then none else some (natOfDigits ds)

/-- Consume `(-?\d+)` at the current position and return its numeric value. -/
def eatIntAt : List Char → Option Int
  | '-' :: rest => (eatNatAt rest).map (fun n => -(n : Int))
  | s => (eatNatAt s).map (fun n => (n : Int))

/-- Scan left to right for the first position at a word boundary where
`matchAt` succeeds: the model of `RegExp.prototype.exec` for a pattern of the
form `\b<literal>...`.  The boolean argument is true when the previous
character was not a word character (so a word boundary precedes the current
position). -/
def scanExecGo (matchAt : List Char → Option α) : Bool → List Char → Option α
  | bnd, [] => if bnd then matchAt [] else none
  | bnd, c :: rest =>
    match (if bnd then matchAt (c :: rest) else none) with
    | some r => some r
    | none => scanExecGo matchAt (!(wordChar c)) rest

/-- `RegExp.prototype.exec` for the patterns used by the source. -/
def scanExec (matchAt : List Char → Option α) (s : List Char) : Option α :=
  scanExecGo matchAt true s

/-- Anchored match for `depth\s+(\d+)` (after the word boundary). -/
def matchDepthAt (s : List Char) : Option Nat :=
  (eatLit ['d', 'e', 'p', 't', 'h'] s).bind fun r1 =>
  (eatWs1 r1).bind fun r2 => eatNatAt r2

/-- Anchored match for `score\s+cp\s+(-?\d+)` (after the word boundary). -/
def matchCpAt (s : List Char) : Option Int :=
  (eatLit ['s', 'c', 'o', 'r', 'e'] s).bind fun r1 =>
  (eatWs1 r1).bind fun r2 =>
  (eatLit ['c', 'p'] r2).bind fun r3 =>
  (eatWs1 r3).bind fun r4 => eatIntAt r4

/-- Anchored match for `score\s+mate\s+(-?\d+)` (after the word boundary). -/
def matchMateAt (s : List Char) : Option Int :=
  (eatLit ['s', 'c', 'o', 'r', 'e'] s).bind fun r1 =>
  (eatWs1 r1).bind fun r2 =>
  (eatLit ['m', 'a', 't', 'e'] r2).bind fun r3 =>
  (eatWs1 r3).bind fun r4 => eatIntAt r4

/-- JavaScript `String.prototype.split` on a single separator character
(used by the source as `buffer.split("\n")` and `fen.split(" ")`); always
returns a non-empty list and keeps empty segments. -/
def splitOnCharGo (sep : Char) : List Char → List Char → List (List Char)
  | cur, [] => [cur.reverse]
  | cur, c :: rest =>
    if c == sep then cur.reverse :: splitOnCharGo sep [] rest
    else splitOnCharGo sep (c :: cur) rest

/-- Split on a single separator character. -/
def splitOnChar (sep : Char) (s : List Char) : List (List Char) :=
  splitOnCharGo sep [] s

/-- Split on newline characters, as `buffer.split("\n")`. -/
def splitNl (s : List Char) : List (List Char) :=
  splitOnChar '\n' s

/-- Tokens separated by single whitespace characters (empty tokens kept). -/
def wsTokensGo : List Char → List Char → List (List Char)
  | cur, [] => [cur.reverse]
  | cur, c :: rest =>
    if jsWhitespace c then cur.reverse :: wsTokensGo [] rest
    else wsTokensGo (c :: cur) rest

/-- JavaScript `split(/\s+/)` on a trimmed string: whitespace runs separate
tokens.  (On a trimmed, non-empty string this agrees with the JavaScript
semantics; the source always applies it to `line.trim()`.) -/
def splitWsRuns (t : List Char) : List (List Char) :=
  (wsTokensGo [] t).filter (fun x => !x.isEmpty)

/-- The score of one UCI `info` line: centipawns or mate distance, at most one
of the two (`score_cp INTEGER -- null if mate`, `score_mate INTEGER -- null if
cp` in the schema). -/
structure Score where
  cp : Option Int
  mate : Option Int
deriving DecidableEq, Repr

/-- Result of reading one position's engine output (`readUntilBestMove`). -/
structure AnalysisResult where
  score : Score
  bestMove : List Char
  depth : Nat
deriving DecidableEq, Repr

/-- The mutable locals of `readUntilBestMove`: `lastScore` and `lastDepth`. -/
structure ParseState where
  lastScore : Score
  lastDepth : Nat
deriving DecidableEq, Repr

/-- Initial parser state: `lastScore = (null, null)`, `lastDepth = 0`. -/
def initState : ParseState :=
  ⟨⟨none, none⟩, 0⟩

/-- The `info` line filter of `readUntilBestMove`: starts with `info`,
contains `score`, and is not an aspiration-window bound line. -/
def isScoreInfoLine (t : List Char) : Bool :=
  startsWithStr ['i', 'n', 'f', 'o'] t &&
  containsStr ['s', 'c', 'o', 'r', 'e'] t &&
  !containsStr ['l', 'o', 'w', 'e', 'r', 'b', 'o', 'u', 'n', 'd'] t &&
  !containsStr ['u', 'p', 'p', 'e', 'r', 'b', 'o', 'u', 'n', 'd'] t

/-- One iteration of the inner `for (const line of lines)` loop of
`readUntilBestMove`, restricted to its effect on `lastScore`/`lastDepth`:
on a qualifying `info` line, update the depth if `\bdepth\s+(\d+)` matches,
then set the score from `\bscore\s+cp\s+(-?\d+)`, else from
`\bscore\s+mate\s+(-?\d+)`, else leave it. -/
def stepLineState (st : ParseState) (line : List Char) : ParseState :=
  let t := jsTrim line
  if isScoreInfoLine t then
    let st1 : ParseState :=
      match scanExec matchDepthAt t with
      | some d => ⟨st.lastScore, d⟩
      | none => st
    match scanExec matchCpAt t with
    | some v => ⟨⟨some v, none⟩, st1.lastDepth⟩
    | none =>
      match scanExec matchMateAt t with
      | some v => ⟨⟨none, some v⟩, st1.lastDepth⟩
      | none => st1
  else st

/-- `trimmed.startsWith("bestmove")`. -/
def isBestmoveLine (line : List Char) : Bool :=
  startsWithStr ['b', 'e', 's', 't', 'm', 'o', 'v', 'e'] (jsTrim line)

/-- `trimmed.split(/\s+/)[1] ?? ""`: the move reported on a bestmove line. -/
def bmTok (line : List Char) : List Char :=
  ((splitWsRuns (jsTrim line))[1]?).getD []

/-- The inner loop of `readUntilBestMove` over the complete lines of one
chunk: returns early with the analysis result at the first `bestmove` line,
otherwise the updated state. -/
def processLines : ParseState → List (List Char) → Option AnalysisResult × ParseState
  | st, [] => (none, st)
  | st, line :: rest =>
    let st' := stepLineState st line
    if isBestmoveLine line then
      (some ⟨st'.lastScore, bmTok line, st'.lastDepth⟩, st')
    else processLines st' rest

/-- The outer `for (;;)` read loop of `readUntilBestMove`: append the chunk to
the buffer, split on newlines, keep the final (possibly incomplete) segment as
the new buffer, process the complete lines, and return early at a `bestmove`
line.  When the stream ends (`done`), return the state so far with an empty
best move. -/
def readLoop : ParseState → List Char → List (List Char) → AnalysisResult
  | st, _, [] => ⟨st.lastScore, [], st.lastDepth⟩
  | st, buffer, chunk :: chunks =>
    let parts := splitNl (buffer ++ chunk)
    match processLines st parts.dropLast with
    | (some r, _) => r
    | (none, st') => readLoop st' ((parts.getLast?).getD []) chunks

/-- `readUntilBestMove` (source lines 45-96) on a list of decoded stdout
chunks. -/
def readUntilBestMove (chunks : List (List Char)) : AnalysisResult :=
  readLoop initState [] chunks

/-- Max time per position in ms (`SEARCH_MOVETIME`, source line 25). -/
def SEARCH_MOVETIME : Nat := 500

/-- Minimum depth to accept from cache (`MIN_CACHE_DEPTH`, source line 28). -/
def MIN_CACHE_DEPTH : Nat := 12

/-- `fen.split(" ")[1]`: the side-to-move field of a FEN string. -/
def sideToMoveField (fen : List Char) : Option (List Char) :=
  (splitOnChar ' ' fen)[1]?

/-- Negation of both score components, as applied when Black is to move
(`null` fields stay `null`). -/
def negScore (s : Score) : Score :=
  ⟨s.cp.map (fun v => -v), s.mate.map (fun v => -v)⟩

/-- `analyzeSinglePosition` (source lines 168-185): drive one position's
protocol exchange against the engine — modelled as the oracle `engineOut`
giving the stdout chunks the engine produces for a FEN — then normalize the
UCI side-to-move-relative score to White's perspective by negating both
components when the FEN's side-to-move field is `b`. -/
def analyzeSinglePosition (engineOut : List Char → List (List Char))
    (fen : List Char) : AnalysisResult :=
  let result := readUntilBestMove (engineOut fen)
  let isBlackToMove := sideToMoveField fen == some ['b']
  if isBlackToMove then
    ⟨negScore result.score, result.bestMove, result.depth⟩
  else result

/-- `sendCmd` (source lines 137-140): the bytes written to the engine's stdin
for one command are the command text followed by a newline, with no other
transformation. -/
def sendCmd (cmd : List Char) : List Char :=
  cmd ++ ['\n']

/-- One row of the `analysis` table (primary key `(game_id, move_index)`). -/
structure AnalysisRow where
  gameId : List Char
  moveIndex : Nat
  fen : List Char
  moveSan : Option (List Char)
  scoreCp : Option Int
  scoreMate : Option Int
  bestMove : List Char
  depth : Nat
deriving DecidableEq, Repr

/-- The `analysis` table, modelled as its list of rows in table order. -/
abbrev Db := List AnalysisRow

/-- `SELECT COUNT(*) FROM analysis WHERE game_id = ? AND depth >= ?` with the
minimum cache depth (source lines 205-209). -/
def countDeepRows (db : Db) (g : List Char) : Nat :=
  (db.filter (fun r => r.gameId == g && decide (MIN_CACHE_DEPTH ≤ r.depth))).length

/-- `SELECT ... WHERE game_id = ? AND move_index = ? AND depth >= ?` followed
by `.get` (first matching row or null; source lines 253-263). -/
def lookupCached (db : Db) (g : List Char) (i : Nat) : Option AnalysisRow :=
  (db.filter (fun r =>
    r.gameId == g && r.moveIndex == i && decide (MIN_CACHE_DEPTH ≤ r.depth))).head?

/-- `INSERT OR REPLACE` on the `(game_id, move_index)` primary key: any row
with the same key is removed and the new row stored. -/
def upsertRow (db : Db) (r : AnalysisRow) : Db :=
  (db.filter (fun x => !(x.gameId == r.gameId && x.moveIndex == r.moveIndex))) ++ [r]

/-- The row ordering of `ORDER BY move_index`. -/
def rowLe (a b : AnalysisRow) : Prop :=
  a.moveIndex ≤ b.moveIndex

instance : DecidableRel rowLe := fun a b => Nat.decLe a.moveIndex b.moveIndex

instance : IsTotal AnalysisRow rowLe :=
  ⟨fun a b => Nat.le_total a.moveIndex b.moveIndex⟩

instance : IsTrans AnalysisRow rowLe :=
  ⟨fun _ _ _ => Nat.le_trans⟩

/-- `SELECT ... WHERE game_id = ? ORDER BY move_index` (source lines 213-225):
the game's rows sorted by position index. -/
def rowsForGameSorted (db : Db) (g : List Char) : List AnalysisRow :=
  List.insertionSort rowLe (db.filter (fun r => r.gameId == g))

/-- One progress event yielded by `analyzeGame`. -/
structure ProgressEvent where
  moveIndex : Nat
  fen : List Char
  scoreCp : Option Int
  scoreMate : Option Int
  bestMove : List Char
  depth : Nat
  total : Nat
deriving DecidableEq, Repr

/-- The progress event yielded for a cached row on the replay path
(source lines 227-237) and on the per-position cache-hit path
(source lines 265-275); the replay path uses the stored FEN, the loop path the
requested FEN. -/
def rowEvent (total : Nat) (r : AnalysisRow) : ProgressEvent :=
  ⟨r.moveIndex, r.fen, r.scoreCp, r.scoreMate, r.bestMove, r.depth, total⟩

/-- The row upserted after evaluating position `i` (source lines 280-291). -/
def mkRow (g : List Char) (i : Nat) (fen : List Char) (san : Option (List Char))
    (r : AnalysisResult) : AnalysisRow :=
  ⟨g, i, fen, san, r.score.cp, r.score.mate, r.bestMove, r.depth⟩

/-- The move label stored with position `i`:
`i > 0 ? (moves[i - 1] ?? null) : null` (source line 280). -/
def sanAt (moves : List (List Char)) (i : Nat) : Option (List Char) :=
  if i > 0 then moves[i - 1]? else none

/-- The `for (let i = 0; ...)` loop of `analyzeGame` (source lines 251-302):
for each position in order, yield the cached row if one exists at or above the
minimum cache depth, otherwise evaluate the position, upsert the result with
its move label, and yield it.  Returns the yielded events, the final table,
and the list of position indices that were sent to the engine. -/
def analyzeLoop (evalF : List Char → AnalysisResult) (g : List Char)
    (moves : List (List Char)) (total : Nat) :
    List (List Char) → Nat → Db → List ProgressEvent × Db × List Nat
  | [], _, db => ([], db, [])
  | fen :: rest, i, db =>
    match lookupCached db g i with
    | some row =>
      let ev : ProgressEvent :=
        ⟨i, fen, row.scoreCp, row.scoreMate, row.bestMove, row.depth, total⟩
      let out := analyzeLoop evalF g moves total rest (i + 1) db
      (ev :: out.1, out.2.1, out.2.2)
    | none =>
      let result := evalF fen
      let row := mkRow g i fen (sanAt moves i) result
      let ev : ProgressEvent :=
        ⟨i, fen, result.score.cp, result.score.mate, result.bestMove,
          result.depth, total⟩
      let out := analyzeLoop evalF g moves total rest (i + 1) (upsertRow db row)
      (ev :: out.1, out.2.1, i :: out.2.2)

/-- The observable outcome of one `analyzeGame` run. -/
structure RunResult where
  events : List ProgressEvent
  db : Db
  spawned : Bool
  evaluated : List Nat
deriving DecidableEq, Repr

/-- `analyzeGame` (source lines 191-306): if the count of rows at or above the
minimum cache depth covers every position, replay the stored rows in
`move_index` order without spawning an engine; otherwise spawn an engine
(modelled by the evaluation oracle `evalF`) and run the per-position loop.
`spawned` records whether the engine process was spawned and `evaluated`
which positions were sent to it. -/
def analyzeGame (evalF : List Char → AnalysisResult) (g : List Char)
    (fens moves : List (List Char)) (db : Db) : RunResult :=
  if fens.length ≤ countDeepRows db g then
    { events := (rowsForGameSorted db g).map (rowEvent fens.length),
      db := db, spawned := false, evaluated := [] }
  else
    let out := analyzeLoop evalF g moves fens.length fens 0 db
    { events := out.1, db := out.2.1, spawned := true, evaluated := out.2.2 }

/-- Modelled from the spec: `MAX_CONCURRENT_ANALYSES`, the admission bound on
concurrent engine processes.  The module implementing the admission counter is
imported by `server/routes/analyze.ts` but its implementation is not among the
sources; spec §4.5 and `docs/board.md` fix the bound at 2. -/
def MAX_CONCURRENT_ANALYSES : Nat := 2

/-- Modelled from the spec: `acquireAnalysisSlot` — atomically test the shared
counter of active analyses against the bound; return false and leave the
counter unchanged when the bound is reached, otherwise increment it.  The
implementation file is not among the sources (only its import and call in
`server/routes/analyze.ts`); modelled from spec §4.5. -/
def acquireAnalysisSlot (active : Nat) : Bool × Nat :=
  if MAX_CONCURRENT_ANALYSES ≤ active then (false, active)
  else (true, active + 1)

/-- Modelled from the spec: `releaseAnalysisSlot` — decrement the counter of
active analyses.  The implementation file is not among the sources; modelled
from spec §4.5. -/
def releaseAnalysisSlot (active : Nat) : Nat :=
  active - 1

/-- Outcome of the `/api/analyze/:gameId` route, restricted to the admission
and analysis stages (source `server/routes/analyze.ts` lines 117-162). -/
inductive RouteOutcome
  | busy
  | stream (events : List ProgressEvent) (db : Db)
deriving DecidableEq

/-- The admission-relevant behaviour of the analyze route (after the game has
been found and its PGN parsed): try to acquire a slot; on failure return the
429 busy response with nothing spawned; on success run `analyzeGame` and
release the slot in the stream's `finally`.  Returns the outcome, the final
slot counter, and whether an engine process was spawned. -/
def analyzeRoute (evalF : List Char → AnalysisResult) (g : List Char)
    (fens moves : List (List Char)) (db : Db) (active : Nat) :
    RouteOutcome × Nat × Bool :=
  match acquireAnalysisSlot active with
  | (false, a1) => (.busy, a1, false)
  | (true, a1) =>
    let run := analyzeGame evalF g fens moves db
    (.stream run.events run.db, releaseAnalysisSlot a1, run.spawned)

/-- The complete lines the read loop extracts from the chunk stream, including
the buffer splitting (the final segment after the last newline stays in the
buffer and is never parsed). -/
def linesOfChunks : List Char → List (List Char) → List (List Char)
  | _, [] => []
  | buffer, chunk :: chunks =>
    let parts := splitNl (buffer ++ chunk)
    parts.dropLast ++ linesOfChunks ((parts.getLast?).getD []) chunks

/-- The read loop restated over a flat list of complete lines. -/
def runLines (st : ParseState) (ls : List (List Char)) : AnalysisResult :=
  match processLines st ls with
  | (some r, _) => r
  | (none, st') => ⟨st'.lastScore, [], st'.lastDepth⟩

/-- The state after folding the per-line update over a list of lines. -/
def stateFold (st : ParseState) (ls : List (List Char)) : ParseState :=
  ls.foldl stepLineState st

/-- The lines consumed by the parser state: everything before the first
`bestmove` line. -/
def consumedOf (ls : List (List Char)) : List (List Char) :=
  ls.takeWhile (fun l => !isBestmoveLine l)

/-- The first `bestmove` line, if any. -/
def firstBest (ls : List (List Char)) : Option (List Char) :=
  (ls.dropWhile (fun l => !isBestmoveLine l)).head?

/-- A line that actually updates `lastScore`: a qualifying `info` line on
which the centipawn or the mate pattern matches. -/
def isScoringLine (line : List Char) : Bool :=
  isScoreInfoLine (jsTrim line) &&
  ((scanExec matchCpAt (jsTrim line)).isSome ||
   (scanExec matchMateAt (jsTrim line)).isSome)

/-- The score parsed from a scoring line (centipawn match wins, as in the
source's `if (cpMatch !== null) ... else if (mateMatch !== null)`). -/
def lineScore (line : List Char) : Score :=
  match scanExec matchCpAt (jsTrim line) with
  | some v => ⟨some v, none⟩
  | none =>
    match scanExec matchMateAt (jsTrim line) with
    | some v => ⟨none, some v⟩
    | none => ⟨none, none⟩

/-- A line that updates `lastDepth`: a qualifying `info` line on which the
depth pattern matches. -/
def isDepthLine (line : List Char) : Bool :=
  isScoreInfoLine (jsTrim line) && (scanExec matchDepthAt (jsTrim line)).isSome

/-- The depth parsed from a depth-updating line. -/
def lineDepth (line : List Char) : Nat :=
  (scanExec matchDepthAt (jsTrim line)).getD 0

/-- The score parsed from the most recent line that reports a score and is not
an aspiration-window bound, or the null score if there is none. -/
def lastNonBoundScore (ls : List (List Char)) : Score :=
  match (ls.filter isScoringLine).getLast? with
  | some l => lineScore l
  | none => ⟨none, none⟩

/-- The depth parsed from the most recent qualifying line carrying a depth, or
0 if there is none. -/
def lastDepthOf (ls : List (List Char)) : Nat :=
  match (ls.filter isDepthLine).getLast? with
  | some l => lineDepth l
  | none => 0

/-- Exactly one of the two score fields is non-null. -/
def exactlyOneScore (s : Score) : Prop :=
  (s.cp ≠ none ∧ s.mate = none) ∨ (s.cp = none ∧ s.mate ≠ none)

/-- Specification-side restatement of the per-position loop's yielded events
(spec §4.6 step 4): for each position index in order, the cached record's
fields if a record at or above the minimum cache depth exists in the initial
table, otherwise the evaluator's result.  Compared against `analyzeLoop`,
whose cache lookups run against the evolving table. -/
def specEvents (db0 : Db) (evalF : List Char → AnalysisResult) (g : List Char)
    (total : Nat) : List (List Char) → Nat → List ProgressEvent
  | [], _ => []
  | fen :: rest, i =>
    (match lookupCached db0 g i with
     | some row => ⟨i, fen, row.scoreCp, row.scoreMate, row.bestMove, row.depth, total⟩
     | none =>
       let r := evalF fen
       ⟨i, fen, r.score.cp, r.score.mate, r.bestMove, r.depth, total⟩)
    :: specEvents db0 evalF g total rest (i + 1)

/-- Specification-side restatement of the final table: the evaluator's result
is upserted for exactly the positions with no sufficient cached record in the
initial table. -/
def specDb (db0 : Db) (evalF : List Char → AnalysisResult) (g : List Char)
    (moves : List (List Char)) : List (List Char) → Nat → Db → Db
  | [], _, dcur => dcur
  | fen :: rest, i, dcur =>
    match lookupCached db0 g i with
    | some _ => specDb db0 evalF g moves rest (i + 1) dcur
    | none =>
      specDb db0 evalF g moves rest (i + 1)
        (upsertRow dcur (mkRow g i fen (sanAt moves i) (evalF fen)))

/-- Specification-side restatement of the engine-evaluated positions: exactly
the indices with no sufficient cached record in the initial table, in order. -/
def specCalls (db0 : Db) (g : List Char) : List (List Char) → Nat → List Nat
  | [], _ => []
  | _ :: rest, i =>
    if (lookupCached db0 g i).isSome then specCalls db0 g rest (i + 1)
    else i :: specCalls db0 g rest (i + 1)

/-- The observable actions of one analysis run, used to state the cleanup
ordering of `analyzeGame`'s `try`/`finally` (source lines 241-305) and the
SSE stream's `try`/`catch`/`finally` (`server/routes/analyze.ts`
lines 127-161). -/
inductive RunAction
  | spawn
  | evalPos (i : Nat)
  | yieldEv (i : Nat)
  | enqueue (i : Nat)
  | enqueueDone
  | enqueueError
  | terminateProc
  | releaseSlot
  | closeStream
deriving DecidableEq, Repr

/-- How a run over an uncached game ends: the consumer drains the generator,
the evaluator raises at position `k`, or the consumer stops pulling after `k`
events. -/
inductive ConsumerMode
  | completes
  | evalErrorAt (k : Nat)
  | abandonAfter (k : Nat)
deriving DecidableEq, Repr

/-- The actions of the per-position loop for the first `n` positions: evaluate,
yield to the consumer, which enqueues the SSE message. -/
def genBody : Nat → List RunAction
  | 0 => []
  | n + 1 => genBody n ++ [.evalPos n, .yieldEv n, .enqueue n]

/-- Sanity bound on the end mode: an error or abandonment happens at a
position index inside the run. -/
def validMode (n : Nat) : ConsumerMode → Prop
  | .completes => True
  | .evalErrorAt k => k < n
  | .abandonAfter k => k < n

/-- The action trace of one uncached `analyzeGame` run driven by the SSE
stream, by end mode.  Encodes the structure of the source — spawn before the
generator's `try`, `sf.cleanup()` in its `finally`, `releaseAnalysisSlot()`
then `controller.close()` in the stream's `finally` — together with the
JavaScript semantics of those constructs: the generator's `finally` runs when
its body completes, when it throws (the exception then reaching the stream's
`catch`), and when the consumer stops early (`for await` break calls the
generator's `return()`), and the stream's `finally` runs after the `for await`
has exited in every mode. -/
def runTrace (n : Nat) : ConsumerMode → List RunAction
  | .completes =>
    .spawn :: genBody n ++ [.terminateProc, .enqueueDone, .releaseSlot, .closeStream]
  | .evalErrorAt k =>
    .spawn :: genBody k ++ [.evalPos k, .terminateProc, .enqueueError, .releaseSlot, .closeStream]
  | .abandonAfter k =>
    .spawn :: genBody k ++ [.terminateProc, .releaseSlot, .closeStream]

/-! Concrete inputs used by counterexamples and witnesses. -/

/-- The chunk `bestmove e2e4` followed by a newline. -/
def cBestmoveChunk : List Char := ['b', 'e', 's', 't', 'm', 'o', 'v', 'e', ' ', 'e', '2', 'e', '4', '\n']

/-- A position string whose side-to-move field is `w`. -/
def cFenW : List Char := ['x', ' ', 'w']

/-- A position string whose side-to-move field is `b`. -/
def cFenB : List Char := ['x', ' ', 'b']

/-- Engine output reporting `score cp 7` at depth 9, then a best move. -/
def cChunkCp7 : List Char := ['i', 'n', 'f', 'o', ' ', 'd', 'e', 'p', 't', 'h', ' ', '9', ' ', 's', 'c', 'o', 'r', 'e', ' ', 'c', 'p', ' ', '7', '\n', 'b', 'e', 's', 't', 'm', 'o', 'v', 'e', ' ', 'e', '2', 'e', '4', '\n']

/-- Engine output with a final `lowerbound` score line before the best move. -/
def cChunkC3 : List Char := ['i', 'n', 'f', 'o', ' ', 'd', 'e', 'p', 't', 'h', ' ', '3', ' ', 's', 'c', 'o', 'r', 'e', ' ', 'c', 'p', ' ', '3', '0', '\n', 'i', 'n', 'f', 'o', ' ', 'd', 'e', 'p', 't', 'h', ' ', '4', ' ', 's', 'c', 'o', 'r', 'e', ' ', 'c', 'p', ' ', '9', '9', ' ', 'l', 'o', 'w', 'e', 'r', 'b', 'o', 'u', 'n', 'd', '\n', 'b', 'e', 's', 't', 'm', 'o', 'v', 'e', ' ', 'e', '2', 'e', '4', '\n']

/-- Engine output that ends mid-line with no `bestmove` line. -/
def cChunkC10 : List Char := ['i', 'n', 'f', 'o', ' ', 'd', 'e', 'p', 't', 'h', ' ', '5', ' ', 's', 'c', 'o', 'r', 'e', ' ', 'c', 'p', ' ', '3', '\n', 'i', 'n', 'f', 'o', ' ', 'd', 'e', 'p']

/-- An `info` line with no score report, then stream end. -/
def cChunkNoScore : List Char := ['i', 'n', 'f', 'o', ' ', 'd', 'e', 'p', 't', 'h', ' ', '1', '\n']

/-- A command with an embedded newline (`position fen x` then `quit`). -/
def cInjCmd : List Char := ['p', 'o', 's', 'i', 't', 'i', 'o', 'n', ' ', 'f', 'e', 'n', ' ', 'x', '\n', 'q', 'u', 'i', 't']

/-- First protocol line the engine receives from `cInjCmd`. -/
def cInjA : List Char := ['p', 'o', 's', 'i', 't', 'i', 'o', 'n', ' ', 'f', 'e', 'n', ' ', 'x']

/-- Second protocol line the engine receives from `cInjCmd`. -/
def cInjB : List Char := ['q', 'u', 'i', 't']

/-- A game identifier. -/
def cG : List Char := ['g']

/-- An engine oracle that only ever reports a best move, never a score. -/
def ceEngine : List Char → List (List Char) := fun _ => [cBestmoveChunk]

/-- An engine oracle reporting `cp 7` at depth 9 for every position. -/
def cEngineCp7 : List Char → List (List Char) := fun _ => [cChunkCp7]

/-- A constant evaluation oracle used for the cache-resumption witness. -/
def cEval : List Char → AnalysisResult := fun _ => ⟨⟨some 1, none⟩, ['b', 'm'], 20⟩

/-- A cached row for game `cG` at position `i` at depth 12. -/
def cRow (i : Nat) : AnalysisRow :=
  ⟨cG, i, [Char.ofNat (48 + i)], none, some 10, none, ['b', 'm'], 12⟩

/-- A fully analyzed one-position game table. -/
def cDbFull : Db := [cRow 0]

/-- Seven position strings. -/
def cFens7 : List (List Char) :=
  [['0'], ['1'], ['2'], ['3'], ['4'], ['5'], ['6']]

/-- Six move labels. -/
def cMoves7 : List (List Char) :=
  [['m', '1'], ['m', '2'], ['m', '3'], ['m', '4'], ['m', '5'], ['m', '6']]

/-- A table caching positions 0-3 of game `cG` at depth 12. -/
def cDbHalf : Db := [cRow 0, cRow 1, cRow 2, cRow 3]

/-! Lemmas about the read loop. -/

/-- A line starting with `bestmove` does not start with `info`. -/
lemma isBestmove_not_info (l : List Char) (h : isBestmoveLine l = true) :
    isScoreInfoLine (jsTrim l) = false := by
  unfold isBestmoveLine at h
  unfold isScoreInfoLine
  cases ht : jsTrim l with
  | nil => rw [ht] at h; simp [startsWithStr] at h
  | cons c cs =>
    rw [ht] at h
    have hc : c = 'b' := by
      by_contra hne
      simp [startsWithStr, beq_iff_eq] at h
      exact hne h.1.symm
    subst hc
    simp [startsWithStr]

/-- A `bestmove` line leaves the parser state unchanged. -/
lemma stepLineState_of_bestmove (st : ParseState) (l : List Char)
    (h : isBestmoveLine l = true) : stepLineState st l = st := by
  simp [stepLineState, isBestmove_not_info l h]

/-- `processLines` at a `bestmove` line returns the result built from the
unchanged state. -/
lemma processLines_cons_best (st : ParseState) (l : List Char)
    (rest : List (List Char)) (h : isBestmoveLine l = true) :
    processLines st (l :: rest) =
      (some ⟨st.lastScore, bmTok l, st.lastDepth⟩, st) := by
  simp [processLines, h, stepLineState_of_bestmove st l h]

/-- `processLines` at a non-`bestmove` line steps the state and continues. -/
lemma processLines_cons_not (st : ParseState) (l : List Char)
    (rest : List (List Char)) (h : isBestmoveLine l = false) :
    processLines st (l :: rest) = processLines (stepLineState st l) rest := by
  simp [processLines, h]

/-- `processLines` over an appended list: early return dominates. -/
lemma processLines_append (b : List (List Char)) :
    ∀ (a : List (List Char)) (st : ParseState),
      processLines st (a ++ b) =
        match processLines st a with
        | (some r, s) => (some r, s)
        | (none, s) => processLines s b := by
  intro a
  induction a with
  | nil => intro st; simp [processLines]
  | cons l rest ih =>
    intro st
    by_cases h : isBestmoveLine l
    · rw [List.cons_append, processLines_cons_best st l (rest ++ b) h,
        processLines_cons_best st l rest h]
    · rw [List.cons_append,
        processLines_cons_not st l (rest ++ b) (by simpa using h),
        processLines_cons_not st l rest (by simpa using h), ih]

/-- `runLines` over an appended list. -/
lemma runLines_append (a b : List (List Char)) (st : ParseState) :
    runLines st (a ++ b) =
      match processLines st a with
      | (some r, _) => r
      | (none, s) => runLines s b := by
  unfold runLines
  rw [processLines_append b a st]
  cases h : processLines st a with
  | mk r s => cases r <;> simp

/-- The chunked read loop equals the read loop over the complete lines it
extracts. -/
lemma readLoop_eq_runLines :
    ∀ (chunks : List (List Char)) (st : ParseState) (buffer : List Char),
      readLoop st buffer chunks = runLines st (linesOfChunks buffer chunks) := by
  intro chunks
  induction chunks with
  | nil => intro st buffer; simp [readLoop, linesOfChunks, runLines, processLines]
  | cons chunk chunks ih =>
    intro st buffer
    rw [readLoop, linesOfChunks]
    rw [runLines_append]
    cases h : processLines st (splitNl (buffer ++ chunk)).dropLast with
    | mk r s =>
      cases r with
      | none => simp only [h]; exact ih s _
      | some r' => simp only [h]

/-- Characterization of the read loop over lines: the returned score and depth
come from folding the per-line update over the lines before the first
`bestmove` line, and the best move from that line's second token (empty when
the stream ends without one). -/
lemma runLines_char :
    ∀ (ls : List (List Char)) (st : ParseState),
      runLines st ls =
        ⟨(stateFold st (consumedOf ls)).lastScore,
         (match firstBest ls with
          | some bm => bmTok bm
          | none => []),
         (stateFold st (consumedOf ls)).lastDepth⟩ := by
  intro ls
  induction ls with
  | nil =>
    intro st
    simp [runLines, processLines, consumedOf, firstBest, stateFold]
  | cons l rest ih =>
    intro st
    by_cases h : isBestmoveLine l
    · unfold runLines
      rw [processLines_cons_best st l rest h]
      simp [consumedOf, firstBest, h, stateFold]
    · unfold runLines
      rw [processLines_cons_not st l rest (by simpa using h)]
      have := ih (stepLineState st l)
      unfold runLines at this
      rw [this]
      simp [consumedOf, firstBest, h, stateFold]

/-- Master characterization of `readUntilBestMove` on a chunk stream. -/
lemma readUntilBestMove_char (chunks : List (List Char)) :
    readUntilBestMove chunks =
      ⟨(stateFold initState (consumedOf (linesOfChunks [] chunks))).lastScore,
       (match firstBest (linesOfChunks [] chunks) with
        | some bm => bmTok bm
        | none => []),
       (stateFold initState (consumedOf (linesOfChunks [] chunks))).lastDepth⟩ := by
  unfold readUntilBestMove
  rw [readLoop_eq_runLines chunks initState []]
  exact runLines_char (linesOfChunks [] chunks) initState

/-- Effect of one line on `lastScore`. -/
lemma stepLineState_score (st : ParseState) (l : List Char) :
    (stepLineState st l).lastScore =
      if isScoringLine l then lineScore l else st.lastScore := by
  unfold stepLineState isScoringLine lineScore
  by_cases hinfo : isScoreInfoLine (jsTrim l)
  · cases hd : scanExec matchDepthAt (jsTrim l) <;>
      cases hcp : scanExec matchCpAt (jsTrim l) <;>
        cases hmate : scanExec matchMateAt (jsTrim l) <;>
          simp [hinfo, hd, hcp, hmate]
  · simp [hinfo]

/-- Effect of one line on `lastDepth`. -/
lemma stepLineState_depth (st : ParseState) (l : List Char) :
    (stepLineState st l).lastDepth =
      if isDepthLine l then lineDepth l else st.lastDepth := by
  unfold stepLineState isDepthLine lineDepth
  by_cases hinfo : isScoreInfoLine (jsTrim l)
  · cases hd : scanExec matchDepthAt (jsTrim l) <;>
      cases hcp : scanExec matchCpAt (jsTrim l) <;>
        cases hmate : scanExec matchMateAt (jsTrim l) <;>
          simp [hinfo, hd, hcp, hmate]
  · simp [hinfo]

/-- `getLast?` of a non-empty list is `some`. -/
lemma getLast?_cons_isSome (x : α) (xs : List α) :
    ∃ a, (x :: xs).getLast? = some a := by
  induction xs generalizing x with
  | nil => exact ⟨x, rfl⟩
  | cons y ys ih => rw [List.getLast?_cons_cons]; exact ih y

/-- The last element of a list is an element. -/
lemma getLast?_mem'' : ∀ (l : List α) (a : α), l.getLast? = some a → a ∈ l := by
  intro l
  induction l with
  | nil => intro a h; simp at h
  | cons x xs ih =>
    intro a h
    cases xs with
    | nil => simp at h; simp [h]
    | cons y ys =>
      rw [List.getLast?_cons_cons] at h
      exact List.mem_cons_of_mem x (ih a h)

/-- The fold of the per-line update tracks the most recent scoring line. -/
lemma stateFold_score :
    ∀ (ls : List (List Char)) (st : ParseState),
      (stateFold st ls).lastScore =
        match (ls.filter isScoringLine).getLast? with
        | some l => lineScore l
        | none => st.lastScore := by
  intro ls
  induction ls with
  | nil => intro st; simp [stateFold]
  | cons l rest ih =>
    intro st
    have hstep : stateFold st (l :: rest) = stateFold (stepLineState st l) rest := by
      simp [stateFold]
    rw [hstep, ih]
    by_cases h : isScoringLine l
    · cases hfr : rest.filter isScoringLine with
      | nil =>
        simp [List.filter_cons, h, hfr, stepLineState_score]
      | cons x xs =>
        obtain ⟨a, ha⟩ := getLast?_cons_isSome x xs
        simp [List.filter_cons, h, hfr, ha]
    · simp [List.filter_cons, h, stepLineState_score]

/-- The fold of the per-line update tracks the most recent depth-carrying
line. -/
lemma stateFold_depth :
    ∀ (ls : List (List Char)) (st : ParseState),
      (stateFold st ls).lastDepth =
        match (ls.filter isDepthLine).getLast? with
        | some l => lineDepth l
        | none => st.lastDepth := by
  intro ls
  induction ls with
  | nil => intro st; simp [stateFold]
  | cons l rest ih =>
    intro st
    have hstep : stateFold st (l :: rest) = stateFold (stepLineState st l) rest := by
      simp [stateFold]
    rw [hstep, ih]
    by_cases h : isDepthLine l
    · cases hfr : rest.filter isDepthLine with
      | nil =>
        simp [List.filter_cons, h, hfr, stepLineState_depth]
      | cons x xs =>
        obtain ⟨a, ha⟩ := getLast?_cons_isSome x xs
        simp [List.filter_cons, h, hfr, ha]
    · simp [List.filter_cons, h, stepLineState_depth]

/-- The score parsed from any line has at most one non-null field. -/
lemma lineScore_atMostOne (l : List Char) :
    (lineScore l).cp = none ∨ (lineScore l).mate = none := by
  unfold lineScore
  cases hcp : scanExec matchCpAt (jsTrim l)
  · cases hmate : scanExec matchMateAt (jsTrim l) <;> simp
  · simp

/-- The score parsed from a scoring line has exactly one non-null field. -/
lemma lineScore_exactlyOne (l : List Char) (h : isScoringLine l = true) :
    exactlyOneScore (lineScore l) := by
  unfold isScoringLine at h
  unfold exactlyOneScore lineScore
  cases hcp : scanExec matchCpAt (jsTrim l)
  · cases hmate : scanExec matchMateAt (jsTrim l)
    · rw [hcp, hmate] at h; simp at h
    · simp
  · simp

/-- The returned score is the last non-bound score among the consumed lines. -/
lemma readUntilBestMove_score (chunks : List (List Char)) :
    (readUntilBestMove chunks).score =
      lastNonBoundScore (consumedOf (linesOfChunks [] chunks)) := by
  rw [readUntilBestMove_char chunks]
  rw [stateFold_score]
  unfold lastNonBoundScore
  cases (consumedOf (linesOfChunks [] chunks)).filter isScoringLine |>.getLast? <;>
    simp [initState]

/-- The returned depth is the last parsed depth among the consumed lines. -/
lemma readUntilBestMove_depth (chunks : List (List Char)) :
    (readUntilBestMove chunks).depth =
      lastDepthOf (consumedOf (linesOfChunks [] chunks)) := by
  rw [readUntilBestMove_char chunks]
  rw [stateFold_depth]
  unfold lastDepthOf
  cases (consumedOf (linesOfChunks [] chunks)).filter isDepthLine |>.getLast? <;>
    simp [initState]

/-- `lastNonBoundScore` always has at most one non-null field. -/
lemma lastNonBoundScore_atMostOne (ls : List (List Char)) :
    (lastNonBoundScore ls).cp = none ∨ (lastNonBoundScore ls).mate = none := by
  unfold lastNonBoundScore
  cases h : (ls.filter isScoringLine).getLast? with
  | none => simp
  | some l => simpa using lineScore_atMostOne l

/-- At most one score field of a `readUntilBestMove` result is non-null. -/
lemma readUntilBestMove_atMostOne (chunks : List (List Char)) :
    (readUntilBestMove chunks).score.cp = none ∨
    (readUntilBestMove chunks).score.mate = none := by
  rw [readUntilBestMove_score]
  exact lastNonBoundScore_atMostOne _

/-- If some consumed line is a scoring line, exactly one score field of the
result is non-null. -/
lemma readUntilBestMove_exactlyOne (chunks : List (List Char))
    (h : (consumedOf (linesOfChunks [] chunks)).any isScoringLine = true) :
    exactlyOneScore (readUntilBestMove chunks).score := by
  rw [readUntilBestMove_score]
  unfold lastNonBoundScore
  obtain ⟨x, hx, hpx⟩ := List.any_eq_true.mp h
  cases hgl : ((consumedOf (linesOfChunks [] chunks)).filter isScoringLine).getLast? with
  | none =>
    have hmem : x ∈ (consumedOf (linesOfChunks [] chunks)).filter isScoringLine :=
      List.mem_filter.mpr ⟨hx, hpx⟩
    cases hfl : (consumedOf (linesOfChunks [] chunks)).filter isScoringLine with
    | nil => rw [hfl] at hmem; simp at hmem
    | cons y ys =>
      rw [hfl] at hgl
      obtain ⟨a, ha⟩ := getLast?_cons_isSome y ys
      rw [ha] at hgl
      exact absurd hgl (by simp)
  | some l =>
    have hmeml : l ∈ (consumedOf (linesOfChunks [] chunks)).filter isScoringLine :=
      getLast?_mem'' _ l hgl
    have : isScoringLine l = true := (List.mem_filter.mp hmeml).2
    simpa using lineScore_exactlyOne l this

/-- Negation preserves nullness of both fields. -/
lemma negScore_nullness (s : Score) :
    ((negScore s).cp = none ↔ s.cp = none) ∧
    ((negScore s).mate = none ↔ s.mate = none) := by
  unfold negScore
  cases s.cp <;> cases s.mate <;> simp

/-- The score of `analyzeSinglePosition` is the raw score or its negation. -/
lemma analyzeSinglePosition_score_cases
    (engineOut : List Char → List (List Char)) (fen : List Char) :
    (analyzeSinglePosition engineOut fen).score =
        (readUntilBestMove (engineOut fen)).score ∨
    (analyzeSinglePosition engineOut fen).score =
        negScore (readUntilBestMove (engineOut fen)).score := by
  unfold analyzeSinglePosition
  by_cases h : sideToMoveField fen == some ['b']
  · right; simp [h]
  · left; simp [h]

/-- At most one score field of an `analyzeSinglePosition` result is
non-null. -/
lemma analyzeSinglePosition_atMostOne
    (engineOut : List Char → List (List Char)) (fen : List Char) :
    (analyzeSinglePosition engineOut fen).score.cp = none ∨
    (analyzeSinglePosition engineOut fen).score.mate = none := by
  rcases analyzeSinglePosition_score_cases engineOut fen with h | h <;> rw [h]
  · exact readUntilBestMove_atMostOne _
  · rcases readUntilBestMove_atMostOne (engineOut fen) with hc | hm
    · exact Or.inl (((negScore_nullness _).1).mpr hc)
    · exact Or.inr (((negScore_nullness _).2).mpr hm)

/-! Lemmas about the cache model. -/

/-- A cached lookup returns a row of the table. -/
lemma lookupCached_mem (db : Db) (g : List Char) (i : Nat) (row : AnalysisRow)
    (h : lookupCached db g i = some row) : row ∈ db := by
  unfold lookupCached at h
  cases hf : db.filter (fun r =>
      r.gameId == g && r.moveIndex == i && decide (MIN_CACHE_DEPTH ≤ r.depth)) with
  | nil => rw [hf] at h; simp at h
  | cons x xs =>
    rw [hf] at h
    simp at h
    have hx : x ∈ db := by
      have : x ∈ db.filter (fun r =>
          r.gameId == g && r.moveIndex == i && decide (MIN_CACHE_DEPTH ≤ r.depth)) := by
        rw [hf]; exact List.mem_cons_self x xs
      exact (List.mem_filter.mp this).1
    rw [← h]; exact hx

/-- Rows of an upserted table come from the old table or are the new row. -/
lemma mem_upsertRow (db : Db) (r x : AnalysisRow) (h : x ∈ upsertRow db r) :
    x ∈ db ∨ x = r := by
  unfold upsertRow at h
  rcases List.mem_append.mp h with h1 | h2
  · exact Or.inl (List.mem_filter.mp h1).1
  · right; simpa using h2

/-- The new row is in the upserted table. -/
lemma mem_upsertRow_self (db : Db) (r : AnalysisRow) : r ∈ upsertRow db r := by
  unfold upsertRow
  exact List.mem_append.mpr (Or.inr (by simp))

/-- A row with a different key survives an upsert. -/
lemma mem_upsertRow_of_ne (db : Db) (r x : AnalysisRow) (hx : x ∈ db)
    (h : x.moveIndex ≠ r.moveIndex) : x ∈ upsertRow db r := by
  unfold upsertRow
  refine List.mem_append.mpr (Or.inl (List.mem_filter.mpr ⟨hx, ?_⟩))
  simp [h]

/-- Upserting a row with a different position index does not change a cached
lookup. -/
lemma lookupCached_upsert_ne (db : Db) (g : List Char) (i : Nat)
    (r : AnalysisRow) (h : r.moveIndex ≠ i) :
    lookupCached (upsertRow db r) g i = lookupCached db g i := by
  unfold lookupCached upsertRow
  rw [List.filter_append, List.filter_filter]
  have h1 : (List.filter (fun x =>
      (x.gameId == g && x.moveIndex == i && decide (MIN_CACHE_DEPTH ≤ x.depth)) &&
      !(x.gameId == r.gameId && x.moveIndex == r.moveIndex)) db) =
      (List.filter (fun x =>
        x.gameId == g && x.moveIndex == i && decide (MIN_CACHE_DEPTH ≤ x.depth)) db) := by
    apply List.filter_congr
    intro x _
    by_cases hq : (x.gameId == g && x.moveIndex == i &&
        decide (MIN_CACHE_DEPTH ≤ x.depth)) = true
    · have hxi : x.moveIndex = i := by
        have := hq
        simp only [Bool.and_eq_true, beq_iff_eq] at this
        exact this.1.2
      have hkey : (x.gameId == r.gameId && x.moveIndex == r.moveIndex) = false := by
        have : (x.moveIndex == r.moveIndex) = false := by
          simp [hxi]
          exact fun hh => h hh.symm
        simp [this]
      rw [hq, hkey]
      simp
    · simp only [Bool.not_eq_true] at hq
      rw [hq]
      simp
  have h2 : (List.filter (fun x =>
      x.gameId == g && x.moveIndex == i && decide (MIN_CACHE_DEPTH ≤ x.depth)) [r]) = [] := by
    have : (r.moveIndex == i) = false := by simp [h]
    simp [List.filter, this]
  rw [h1, h2, List.append_nil]

/-- The per-position loop preserves the at-most-one-score invariant on every
yielded event and on the final table. -/
lemma analyzeLoop_atMostOne (evalF : List Char → AnalysisResult)
    (g : List Char) (moves : List (List Char)) (total : Nat)
    (hEval : ∀ fen, (evalF fen).score.cp = none ∨ (evalF fen).score.mate = none) :
    ∀ (rest : List (List Char)) (i : Nat) (db : Db),
      (∀ r ∈ db, r.scoreCp = none ∨ r.scoreMate = none) →
      (∀ ev ∈ (analyzeLoop evalF g moves total rest i db).1,
        ev.scoreCp = none ∨ ev.scoreMate = none) ∧
      (∀ r ∈ (analyzeLoop evalF g moves total rest i db).2.1,
        r.scoreCp = none ∨ r.scoreMate = none) := by
  intro rest
  induction rest with
  | nil =>
    intro i db hdb
    constructor
    · intro ev hev; simp [analyzeLoop] at hev
    · intro r hr; simp only [analyzeLoop] at hr; exact hdb r hr
  | cons fen rest ih =>
    intro i db hdb
    cases hl : lookupCached db g i with
    | some row =>
      have hrow := hdb row (lookupCached_mem db g i row hl)
      have hrec := ih (i + 1) db hdb
      constructor
      · intro ev hev
        simp only [analyzeLoop, hl] at hev
        rcases List.mem_cons.mp hev with he | he
        · subst he; exact hrow
        · exact hrec.1 ev he
      · intro r hr
        simp only [analyzeLoop, hl] at hr
        exact hrec.2 r hr
    | none =>
      have hdb' : ∀ r ∈ upsertRow db (mkRow g i fen (sanAt moves i) (evalF fen)),
          r.scoreCp = none ∨ r.scoreMate = none := by
        intro r hr
        rcases mem_upsertRow _ _ _ hr with h1 | h2
        · exact hdb r h1
        · subst h2; exact hEval fen
      have hrec := ih (i + 1) (upsertRow db (mkRow g i fen (sanAt moves i) (evalF fen))) hdb'
      constructor
      · intro ev hev
        simp only [analyzeLoop, hl] at hev
        rcases List.mem_cons.mp hev with he | he
        · subst he; exact hEval fen
        · exact hrec.1 ev he
      · intro r hr
        simp only [analyzeLoop, hl] at hr
        exact hrec.2 r hr

/-- Replay-path events come from stored rows. -/
lemma mem_replay_events (db : Db) (g : List Char) (total : Nat)
    (ev : ProgressEvent)
    (h : ev ∈ (rowsForGameSorted db g).map (rowEvent total)) :
    ∃ r ∈ db, ev = rowEvent total r := by
  obtain ⟨r, hr, hre⟩ := List.mem_map.mp h
  have hrs : r ∈ db.filter (fun x => x.gameId == g) :=
    (List.perm_insertionSort rowLe (db.filter (fun x => x.gameId == g))).mem_iff.mp hr
  exact ⟨r, (List.mem_filter.mp hrs).1, hre.symm⟩

/-- `analyzeGame` preserves the at-most-one-score invariant on every yielded
event and on the final table, for any engine oracle. -/
lemma analyzeGame_atMostOne (engineOut : List Char → List (List Char))
    (g : List Char) (fens moves : List (List Char)) (db : Db)
    (hdb : ∀ r ∈ db, r.scoreCp = none ∨ r.scoreMate = none) :
    (∀ ev ∈ (analyzeGame (analyzeSinglePosition engineOut) g fens moves db).events,
      ev.scoreCp = none ∨ ev.scoreMate = none) ∧
    (∀ r ∈ (analyzeGame (analyzeSinglePosition engineOut) g fens moves db).db,
      r.scoreCp = none ∨ r.scoreMate = none) := by
  unfold analyzeGame
  by_cases hc : fens.length ≤ countDeepRows db g
  · simp only [hc, if_pos]
    constructor
    · intro ev hev
      obtain ⟨r, hrdb, hre⟩ := mem_replay_events db g fens.length ev hev
      subst hre
      exact hdb r hrdb
    · intro r hr
      exact hdb r hr
  · simp only [hc, if_neg, not_false_iff]
    exact analyzeLoop_atMostOne (analyzeSinglePosition engineOut) g moves
      fens.length (fun fen => analyzeSinglePosition_atMostOne engineOut fen)
      fens 0 db hdb

/-- As long as lookups at indices not yet processed agree with the initial
table, the per-position loop behaves like its specification restatement, which
consults only the initial table. -/
lemma analyzeLoop_eq_spec (evalF : List Char → AnalysisResult) (g : List Char)
    (moves : List (List Char)) (total : Nat) (db0 : Db) :
    ∀ (rest : List (List Char)) (i : Nat) (dcur : Db),
      (∀ j, i ≤ j → lookupCached dcur g j = lookupCached db0 g j) →
      analyzeLoop evalF g moves total rest i dcur =
        (specEvents db0 evalF g total rest i,
         specDb db0 evalF g moves rest i dcur,
         specCalls db0 g rest i) := by
  intro rest
  induction rest with
  | nil => intro i dcur _; simp [analyzeLoop, specEvents, specDb, specCalls]
  | cons fen rest ih =>
    intro i dcur hstab
    have hcur : lookupCached dcur g i = lookupCached db0 g i :=
      hstab i (Nat.le_refl i)
    cases hl : lookupCached db0 g i with
    | some row =>
      have hstab' : ∀ j, i + 1 ≤ j → lookupCached dcur g j = lookupCached db0 g j :=
        fun j hj => hstab j (Nat.le_of_succ_le hj)
      have := ih (i + 1) dcur hstab'
      simp only [analyzeLoop, hcur, hl, specEvents, specDb, specCalls, this,
        Option.isSome_some, if_pos]
    | none =>
      have hstab' : ∀ j, i + 1 ≤ j →
          lookupCached (upsertRow dcur (mkRow g i fen (sanAt moves i) (evalF fen))) g j =
            lookupCached db0 g j := by
        intro j hj
        rw [lookupCached_upsert_ne dcur g j (mkRow g i fen (sanAt moves i) (evalF fen))
          (by simp [mkRow]; omega)]
        exact hstab j (Nat.le_of_succ_le hj)
      have := ih (i + 1) (upsertRow dcur (mkRow g i fen (sanAt moves i) (evalF fen))) hstab'
      simp only [analyzeLoop, hcur, hl, specEvents, specDb, specCalls, this,
        Option.isSome_none, if_neg, Bool.false_eq_true, not_false_iff]

/-- The specification events carry the position indices in order. -/
lemma specEvents_map_idx (db0 : Db) (evalF : List Char → AnalysisResult)
    (g : List Char) (total : Nat) :
    ∀ (rest : List (List Char)) (i : Nat),
      (specEvents db0 evalF g total rest i).map (fun e => e.moveIndex) =
        List.range' i rest.length := by
  intro rest
  induction rest with
  | nil => intro i; simp [specEvents]
  | cons fen rest ih =>
    intro i
    rw [List.length_cons, List.range'_succ]
    cases hl : lookupCached db0 g i with
    | some row => simp only [specEvents, hl, List.map_cons, ih]
    | none => simp only [specEvents, hl, List.map_cons, ih]

/-- The specification calls are exactly the uncached indices, in order. -/
lemma specCalls_eq_filter (db0 : Db) (g : List Char) :
    ∀ (rest : List (List Char)) (i : Nat),
      specCalls db0 g rest i =
        (List.range' i rest.length).filter (fun j => (lookupCached db0 g j).isNone) := by
  intro rest
  induction rest with
  | nil => intro i; simp [specCalls]
  | cons fen rest ih =>
    intro i
    rw [List.length_cons, List.range'_succ, List.filter_cons]
    cases hl : lookupCached db0 g i with
    | some row => simp only [specCalls, hl, Option.isSome_some, if_pos, ih,
        Option.isNone_some, Bool.false_eq_true, not_false_iff, if_neg]
    | none => simp only [specCalls, hl, Option.isSome_none, Bool.false_eq_true,
        not_false_iff, if_neg, ih, Option.isNone_none, if_pos]

/-- Rows outside the processed range survive the specification table. -/
lemma specDb_mem_of_lt (db0 : Db) (evalF : List Char → AnalysisResult)
    (g : List Char) (moves : List (List Char)) :
    ∀ (rest : List (List Char)) (i : Nat) (dcur : Db) (r : AnalysisRow),
      r ∈ dcur → r.moveIndex < i →
      r ∈ specDb db0 evalF g moves rest i dcur := by
  intro rest
  induction rest with
  | nil => intro i dcur r hr _; simpa [specDb] using hr
  | cons fen rest ih =>
    intro i dcur r hr hlt
    cases hl : lookupCached db0 g i with
    | some row =>
      simp only [specDb, hl]
      exact ih (i + 1) dcur r hr (Nat.lt_succ_of_lt hlt)
    | none =>
      simp only [specDb, hl]
      refine ih (i + 1) _ r ?_ (Nat.lt_succ_of_lt hlt)
      exact mem_upsertRow_of_ne dcur _ r hr (by simp [mkRow]; omega)

/-- The evaluator's row for every uncached position is in the specification
table. -/
lemma specDb_mem_upserted (db0 : Db) (evalF : List Char → AnalysisResult)
    (g : List Char) (moves : List (List Char)) :
    ∀ (rest : List (List Char)) (i : Nat) (dcur : Db) (k : Nat) (fen : List Char),
      rest[k]? = some fen → lookupCached db0 g (i + k) = none →
      mkRow g (i + k) fen (sanAt moves (i + k)) (evalF fen) ∈
        specDb db0 evalF g moves rest i dcur := by
  intro rest
  induction rest with
  | nil => intro i dcur k fen hk _; simp at hk
  | cons fen0 rest ih =>
    intro i dcur k fen hk hnone
    cases k with
    | zero =>
      simp only [List.getElem?_cons_zero, Option.some.injEq] at hk
      subst hk
      rw [Nat.add_zero] at hnone
      simp only [specDb, hnone]
      refine specDb_mem_of_lt db0 evalF g moves rest (i + 1) _ _ ?_ ?_
      · rw [Nat.add_zero]; exact mem_upsertRow_self dcur _
      · simp [mkRow]
    | succ k' =>
      simp only [List.getElem?_cons_succ] at hk
      have harith : i + (k' + 1) = (i + 1) + k' := by omega
      cases hl : lookupCached db0 g i with
      | some row =>
        simp only [specDb, hl]
        rw [harith] at hnone ⊢
        exact ih (i + 1) dcur k' fen hk hnone
      | none =>
        simp only [specDb, hl]
        rw [harith] at hnone ⊢
        exact ih (i + 1) _ k' fen hk hnone

/-- Replay events are in ascending position-index order. -/
lemma replay_events_sorted (db : Db) (g : List Char) (total : Nat) :
    List.Pairwise (fun a b => a.moveIndex ≤ b.moveIndex)
      ((rowsForGameSorted db g).map (rowEvent total)) := by
  have hs : List.Sorted rowLe (rowsForGameSorted db g) :=
    List.sorted_insertionSort rowLe (db.filter (fun r => r.gameId == g))
  refine List.Pairwise.map (rowEvent total) ?_ hs
  intro a b hab
  simpa [rowEvent] using hab

/-- The loop body of a run contains neither cleanup action. -/
lemma genBody_count (m : Nat) :
    (genBody m).count RunAction.terminateProc = 0 ∧
    (genBody m).count RunAction.releaseSlot = 0 := by
  induction m with
  | zero => simp [genBody]
  | succ n ih =>
    unfold genBody
    rw [List.count_append, List.count_append]
    constructor
    · rw [ih.1]; simp [List.count_cons]
    · rw [ih.2]; simp [List.count_cons]

/-- Every element of a list satisfying the predicate makes `takeWhile` the
identity. -/
lemma takeWhile_all (p : α → Bool) :
    ∀ (l : List α), (∀ x ∈ l, p x = true) → l.takeWhile p = l := by
  intro l
  induction l with
  | nil => intro _; rfl
  | cons x xs ih =>
    intro h
    rw [List.takeWhile_cons, h x (List.mem_cons_self x xs)]
    simp [ih (fun y hy => h y (List.mem_cons_of_mem x hy))]

/-- Every element of a list satisfying the predicate makes `dropWhile`
empty. -/
lemma dropWhile_all (p : α → Bool) :
    ∀ (l : List α), (∀ x ∈ l, p x = true) → l.dropWhile p = [] := by
  intro l
  induction l with
  | nil => intro _; rfl
  | cons x xs ih =>
    intro h
    rw [List.dropWhile_cons, h x (List.mem_cons_self x xs)]
    simp [ih (fun y hy => h y (List.mem_cons_of_mem x hy))]

/-! Claim theorems. -/

/-- C2: for every position whose FEN side-to-move field is `b` (the second
player), `analyzeSinglePosition` returns the engine's raw centipawn and
mate values negated (with null staying null) and the best move and depth
unchanged; for a side-to-move field of `w` (the first player) the raw result
is returned unchanged — so all returned scores are in the canonical White
perspective. -/
theorem analyzeSinglePosition_white_perspective
    (engineOut : List Char → List (List Char)) (fen : List Char) :
    (sideToMoveField fen = some ['b'] →
      (analyzeSinglePosition engineOut fen).score.cp =
        (readUntilBestMove (engineOut fen)).score.cp.map (fun v => -v) ∧
      (analyzeSinglePosition engineOut fen).score.mate =
        (readUntilBestMove (engineOut fen)).score.mate.map (fun v => -v) ∧
      (analyzeSinglePosition engineOut fen).bestMove =
        (readUntilBestMove (engineOut fen)).bestMove ∧
      (analyzeSinglePosition engineOut fen).depth =
        (readUntilBestMove (engineOut fen)).depth) ∧
    (sideToMoveField fen = some ['w'] →
      analyzeSinglePosition engineOut fen = readUntilBestMove (engineOut fen)) := by
  constructor
  · intro h
    have hb : (sideToMoveField fen == some ['b']) = true := by simp [h]
    simp [analyzeSinglePosition, hb, negScore]
  · intro h
    have hb : (sideToMoveField fen == some ['b']) = false := by
      rw [h]; decide
    simp [analyzeSinglePosition, hb]

/-- Witness for C2 at a concrete Black-to-move position and engine output
reporting `cp 7`: the returned centipawn value is `-7`. -/
theorem analyzeSinglePosition_white_perspective_witness :
    sideToMoveField cFenB = some ['b'] ∧
    (analyzeSinglePosition cEngineCp7 cFenB).score.cp = some (-7) ∧
    (analyzeSinglePosition cEngineCp7 cFenB).score.mate = none := by
  have h := (analyzeSinglePosition_white_perspective cEngineCp7 cFenB).1 (by decide)
  refine ⟨by decide, ?_, ?_⟩
  · rw [h.1]; decide
  · rw [h.2.1]; decide

/-- C3: the evaluation returned when the first `bestmove` line is reached is
the score parsed from the most recent preceding info line that reports a score
and is not marked `lowerbound`/`upperbound` (`lastNonBoundScore` filters on
`isScoringLine`, which excludes bound-marked lines, so such lines never become
the final evaluation). -/
theorem readUntilBestMove_keeps_last_score (chunks : List (List Char))
    (h : (linesOfChunks [] chunks).any isBestmoveLine = true) :
    (readUntilBestMove chunks).score =
      lastNonBoundScore
        ((linesOfChunks [] chunks).takeWhile (fun l => !isBestmoveLine l)) := by
  rw [readUntilBestMove_score]
  rfl

/-- Witness for C3: a `lowerbound` line arriving after `cp 30` is discarded
and the returned evaluation is `cp 30`. -/
theorem readUntilBestMove_keeps_last_score_witness :
    (linesOfChunks [] [cChunkC3]).any isBestmoveLine = true ∧
    (readUntilBestMove [cChunkC3]).score = ⟨some 30, none⟩ := by
  have h := readUntilBestMove_keeps_last_score [cChunkC3] (by decide)
  exact ⟨by decide, h.trans (by decide)⟩

/-- C10: if the stream ends before any `bestmove` line, the read returns
normally with an empty best move, the last score parsed so far (both fields
null when no scoring line was seen), and the last parsed depth (0 when none
was seen). -/
theorem readUntilBestMove_stream_end (chunks : List (List Char))
    (h : (linesOfChunks [] chunks).any isBestmoveLine = false) :
    (readUntilBestMove chunks).bestMove = [] ∧
    (readUntilBestMove chunks).score = lastNonBoundScore (linesOfChunks [] chunks) ∧
    ((linesOfChunks [] chunks).any isScoringLine = false →
      (readUntilBestMove chunks).score = ⟨none, none⟩) ∧
    (readUntilBestMove chunks).depth = lastDepthOf (linesOfChunks [] chunks) ∧
    ((linesOfChunks [] chunks).any isDepthLine = false →
      (readUntilBestMove chunks).depth = 0) := by
  have hall : ∀ l ∈ linesOfChunks [] chunks, (fun x => !isBestmoveLine x) l = true := by
    intro l hl
    have := List.any_eq_false.mp h l hl
    simpa using this
  have hcons : consumedOf (linesOfChunks [] chunks) = linesOfChunks [] chunks :=
    takeWhile_all _ _ hall
  have hfb : firstBest (linesOfChunks [] chunks) = none := by
    unfold firstBest
    rw [dropWhile_all _ _ hall]
    rfl
  refine ⟨?_, ?_, ?_, ?_, ?_⟩
  · rw [readUntilBestMove_char chunks, hfb]
  · rw [readUntilBestMove_score, hcons]
  · intro hs
    rw [readUntilBestMove_score, hcons]
    unfold lastNonBoundScore
    have : (linesOfChunks [] chunks).filter isScoringLine = [] := by
      rw [List.filter_eq_nil_iff]
      intro a ha
      exact (List.any_eq_false.mp hs) a ha
    rw [this]
    rfl
  · rw [readUntilBestMove_depth, hcons]
  · intro hs
    rw [readUntilBestMove_depth, hcons]
    unfold lastDepthOf
    have : (linesOfChunks [] chunks).filter isDepthLine = [] := by
      rw [List.filter_eq_nil_iff]
      intro a ha
      exact (List.any_eq_false.mp hs) a ha
    rw [this]
    rfl

/-- Witness for C10: the engine dies after one complete score line and a
partial line; the read returns the empty best move, `cp 3`, depth 5. -/
theorem readUntilBestMove_stream_end_witness :
    (linesOfChunks [] [cChunkC10]).any isBestmoveLine = false ∧
    (readUntilBestMove [cChunkC10]).bestMove = [] ∧
    (readUntilBestMove [cChunkC10]).score = ⟨some 3, none⟩ ∧
    (readUntilBestMove [cChunkC10]).depth = 5 := by
  have h := readUntilBestMove_stream_end [cChunkC10] (by decide)
  exact ⟨by decide, h.1, (h.2.1).trans (by decide), (h.2.2.2.1).trans (by decide)⟩

/-- C5 (evidence): `sendCmd` appends a newline without stripping
carriage-return/line-feed characters from the command, so a command containing
an embedded newline is delivered to the engine as two protocol commands
(`position fen x` and `quit`) rather than one. -/
theorem sendCmd_embedded_newline :
    splitNl (sendCmd cInjCmd) = [cInjA, cInjB, []] ∧
    (sendCmd cInjCmd).count '\n' = 2 := by
  constructor <;> decide

/-- C4 (evidence): the per-position evaluation of the source has no timeout
wrapper and no failure path: its result type has no error case, and on an
engine whose stream ends without a `bestmove` (here after one score-less
`info` line) it returns a plain result instead of an `EngineTimeout`
failure. -/
theorem analyzeSinglePosition_no_timeout :
    analyzeSinglePosition (fun _ => [cChunkNoScore]) cFenW = ⟨⟨none, none⟩, [], 0⟩ := by
  decide

/-- C1 (counterexample): on an engine that reports a best move but no score
line, `analyzeGame` yields a progress event whose centipawn and mate fields
are both null — the exactly-one-score claim fails as stated. -/
theorem analyzeGame_bothNull_event :
    (analyzeGame (analyzeSinglePosition ceEngine) cG [cFenW] [] []).events.map
      (fun e => (e.scoreCp, e.scoreMate)) = [(none, none)] := by
  decide

/-- C1 (amended): for every yielded or stored record at most one of the
centipawn/mate fields is non-null, and the evaluation of a position has
exactly one non-null field whenever the engine emitted at least one
score-bearing non-bound info line before the `bestmove` (or stream end);
when it emitted none, both fields are null. -/
theorem score_fields_mutually_exclusive :
    (∀ chunks, (readUntilBestMove chunks).score.cp = none ∨
       (readUntilBestMove chunks).score.mate = none) ∧
    (∀ chunks,
       (consumedOf (linesOfChunks [] chunks)).any isScoringLine = true →
       exactlyOneScore (readUntilBestMove chunks).score) ∧
    (∀ engineOut g fens moves db,
       (∀ r ∈ db, r.scoreCp = none ∨ r.scoreMate = none) →
       (∀ ev ∈ (analyzeGame (analyzeSinglePosition engineOut) g fens moves db).events,
          ev.scoreCp = none ∨ ev.scoreMate = none) ∧
       (∀ r ∈ (analyzeGame (analyzeSinglePosition engineOut) g fens moves db).db,
          r.scoreCp = none ∨ r.scoreMate = none)) :=
  ⟨readUntilBestMove_atMostOne, readUntilBestMove_exactlyOne, analyzeGame_atMostOne⟩

/-- Witness for the amended C1 at concrete inputs: a scoring line forces
exactly one non-null field, a score-less stream keeps at most one non-null
field, and a concrete run preserves the invariant on events and table. -/
theorem score_fields_mutually_exclusive_witness :
    ((consumedOf (linesOfChunks [] [cChunkCp7])).any isScoringLine = true ∧
      exactlyOneScore (readUntilBestMove [cChunkCp7]).score) ∧
    ((readUntilBestMove [cBestmoveChunk]).score.cp = none ∨
      (readUntilBestMove [cBestmoveChunk]).score.mate = none) ∧
    (∀ ev ∈ (analyzeGame (analyzeSinglePosition cEngineCp7) cG [cFenW] [] cDbFull).events,
      ev.scoreCp = none ∨ ev.scoreMate = none) := by
  refine ⟨⟨by decide, score_fields_mutually_exclusive.2.1 [cChunkCp7] (by decide)⟩,
    score_fields_mutually_exclusive.1 [cBestmoveChunk],
    (score_fields_mutually_exclusive.2.2 cEngineCp7 cG [cFenW] [] cDbFull (by decide)).1⟩

/-- C6: when the count of cached rows at or above the minimum cache depth
covers every position, `analyzeGame` spawns no engine process, evaluates
nothing, leaves the table unchanged, and yields one progress event per stored
record for the game in ascending position-index order, read from the cache;
a second call on the resulting table yields the identical sequence.
(`analyzeGame` contains no admission-controller operation on any path; the
slot counter lives entirely in the route.) -/
theorem analyzeGame_cached_replay (evalF : List Char → AnalysisResult)
    (g : List Char) (fens moves : List (List Char)) (db : Db)
    (h : fens.length ≤ countDeepRows db g) :
    (analyzeGame evalF g fens moves db).spawned = false ∧
    (analyzeGame evalF g fens moves db).evaluated = [] ∧
    (analyzeGame evalF g fens moves db).db = db ∧
    (analyzeGame evalF g fens moves db).events =
      (rowsForGameSorted db g).map (rowEvent fens.length) ∧
    List.Pairwise (fun a b => a.moveIndex ≤ b.moveIndex)
      (analyzeGame evalF g fens moves db).events ∧
    (analyzeGame evalF g fens moves
        ((analyzeGame evalF g fens moves db).db)).events =
      (analyzeGame evalF g fens moves db).events := by
  have hrun : analyzeGame evalF g fens moves db =
      ⟨(rowsForGameSorted db g).map (rowEvent fens.length), db, false, []⟩ := by
    unfold analyzeGame
    rw [if_pos h]
  rw [hrun]
  exact ⟨rfl, rfl, rfl, rfl, replay_events_sorted db g fens.length,
    by rw [show (⟨(rowsForGameSorted db g).map (rowEvent fens.length), db,
      false, []⟩ : RunResult).db = db from rfl, hrun]⟩

/-- Witness for C6 at a fully cached one-position game: no spawn, no engine
calls, and the single stored record replayed. -/
theorem analyzeGame_cached_replay_witness :
    ([['0']] : List (List Char)).length ≤ countDeepRows cDbFull cG ∧
    (analyzeGame cEval cG [['0']] [] cDbFull).spawned = false ∧
    (analyzeGame cEval cG [['0']] [] cDbFull).evaluated = [] ∧
    (analyzeGame cEval cG [['0']] [] cDbFull).events = [rowEvent 1 (cRow 0)] := by
  have h := analyzeGame_cached_replay cEval cG [['0']] [] cDbFull (by decide)
  exact ⟨by decide, h.1, h.2.1, (h.2.2.2.1).trans (by decide)⟩

/-- C7: on a partially cached game, `analyzeGame` processes position indices
strictly in order `0..total-1`; each position with a sufficient cached record
in the initial table is yielded from the cache with no engine call, every
other position is evaluated (exactly the uncached indices reach the engine),
and its result is upserted with the move label `moves[i-1]` (none for the
initial position) and yielded. -/
theorem analyzeGame_resumes_from_cache (evalF : List Char → AnalysisResult)
    (g : List Char) (fens moves : List (List Char)) (db : Db)
    (h : countDeepRows db g < fens.length) :
    (analyzeGame evalF g fens moves db).events =
      specEvents db evalF g fens.length fens 0 ∧
    (analyzeGame evalF g fens moves db).events.map (fun e => e.moveIndex) =
      List.range fens.length ∧
    (analyzeGame evalF g fens moves db).evaluated =
      (List.range fens.length).filter (fun j => (lookupCached db g j).isNone) ∧
    (∀ k fen, fens[k]? = some fen → lookupCached db g k = none →
      mkRow g k fen (sanAt moves k) (evalF fen) ∈
        (analyzeGame evalF g fens moves db).db) := by
  have hneg : ¬ fens.length ≤ countDeepRows db g := Nat.not_le.mpr h
  have hloop := analyzeLoop_eq_spec evalF g moves fens.length db fens 0 db
    (fun j _ => rfl)
  have hrun : analyzeGame evalF g fens moves db =
      ⟨specEvents db evalF g fens.length fens 0,
       specDb db evalF g moves fens 0 db, true, specCalls db g fens 0⟩ := by
    unfold analyzeGame
    rw [if_neg hneg, hloop]
  rw [hrun]
  refine ⟨rfl, ?_, ?_, ?_⟩
  · show (specEvents db evalF g fens.length fens 0).map (fun e => e.moveIndex) = _
    rw [specEvents_map_idx db evalF g fens.length fens 0, List.range_eq_range']
  · show specCalls db g fens 0 = _
    rw [specCalls_eq_filter db g fens 0, List.range_eq_range']
  · intro k fen hk hnone
    show mkRow g k fen (sanAt moves k) (evalF fen) ∈ specDb db evalF g moves fens 0 db
    have := specDb_mem_upserted db evalF g moves fens 0 db k fen hk
      (by rw [Nat.zero_add]; exact hnone)
    rw [Nat.zero_add] at this
    exact this

/-- Witness for C7, the resumability scenario: positions 0-3 cached, a run
over 7 positions evaluates exactly positions 4, 5, 6 and yields all 7 events
in order. -/
theorem analyzeGame_resumes_from_cache_witness :
    countDeepRows cDbHalf cG < cFens7.length ∧
    (analyzeGame cEval cG cFens7 cMoves7 cDbHalf).evaluated = [4, 5, 6] ∧
    (analyzeGame cEval cG cFens7 cMoves7 cDbHalf).events.map (fun e => e.moveIndex) =
      [0, 1, 2, 3, 4, 5, 6] := by
  have h := analyzeGame_resumes_from_cache cEval cG cFens7 cMoves7 cDbHalf (by decide)
  exact ⟨by decide, (h.2.2.1).trans (by decide), (h.2.1).trans (by decide)⟩

/-- C8: when the concurrent-analysis bound is already reached, slot
acquisition fails immediately with the counter unchanged (it never blocks:
it is a total function of the counter), and the route rejects the request
with the busy outcome before any engine process is spawned. -/
theorem analyzeRoute_rejects_when_full (evalF : List Char → AnalysisResult)
    (g : List Char) (fens moves : List (List Char)) (db : Db) (active : Nat)
    (h : MAX_CONCURRENT_ANALYSES ≤ active) :
    acquireAnalysisSlot active = (false, active) ∧
    analyzeRoute evalF g fens moves db active = (.busy, active, false) := by
  have hacq : acquireAnalysisSlot active = (false, active) := by
    unfold acquireAnalysisSlot
    rw [if_pos h]
  refine ⟨hacq, ?_⟩
  unfold analyzeRoute
  rw [hacq]

/-- Witness for C8 with the counter at the bound. -/
theorem analyzeRoute_rejects_when_full_witness :
    MAX_CONCURRENT_ANALYSES ≤ 2 ∧
    analyzeRoute cEval cG cFens7 cMoves7 [] 2 = (.busy, 2, false) :=
  ⟨by decide,
   (analyzeRoute_rejects_when_full cEval cG cFens7 cMoves7 [] 2 (by decide)).2⟩

/-- C9: on every exit path of a spawning run — normal completion, an error
raised during evaluation, or the consumer abandoning the progress sequence —
the trace contains the process-termination action exactly once and the
slot-release action exactly once, with the release strictly after the
termination. -/
theorem runTrace_cleanup_exactly_once (n : Nat) (mode : ConsumerMode)
    (h : validMode n mode) :
    ∃ pre post, runTrace n mode = pre ++ RunAction.terminateProc :: post ∧
      pre.count RunAction.terminateProc = 0 ∧
      pre.count RunAction.releaseSlot = 0 ∧
      post.count RunAction.terminateProc = 0 ∧
      post.count RunAction.releaseSlot = 1 := by
  cases mode with
  | completes =>
    refine ⟨RunAction.spawn :: genBody n,
      [RunAction.enqueueDone, RunAction.releaseSlot, RunAction.closeStream],
      rfl, ?_, ?_, by decide, by decide⟩
    · simp [List.count_cons, (genBody_count n).1]
    · simp [List.count_cons, (genBody_count n).2]
  | evalErrorAt k =>
    refine ⟨RunAction.spawn :: (genBody k ++ [RunAction.evalPos k]),
      [RunAction.enqueueError, RunAction.releaseSlot, RunAction.closeStream],
      ?_, ?_, ?_, by decide, by decide⟩
    · simp [runTrace]
    · simp [List.count_cons, List.count_append, (genBody_count k).1]
    · simp [List.count_cons, List.count_append, (genBody_count k).2]
  | abandonAfter k =>
    refine ⟨RunAction.spawn :: genBody k,
      [RunAction.releaseSlot, RunAction.closeStream],
      rfl, ?_, ?_, by decide, by decide⟩
    · simp [List.count_cons, (genBody_count k).1]
    · simp [List.count_cons, (genBody_count k).2]

/-- Witness for C9 on a two-position run whose evaluator raises at position
1. -/
theorem runTrace_cleanup_exactly_once_witness :
    validMode 2 (ConsumerMode.evalErrorAt 1) ∧
    (∃ pre post,
      runTrace 2 (ConsumerMode.evalErrorAt 1) =
        pre ++ RunAction.terminateProc :: post ∧
      pre.count RunAction.terminateProc = 0 ∧
      pre.count RunAction.releaseSlot = 0 ∧
      post.count RunAction.terminateProc = 0 ∧
      post.count RunAction.releaseSlot = 1) :=
  ⟨by unfold validMode; omega,
   runTrace_cleanup_exactly_once 2 (ConsumerMode.evalErrorAt 1)
     (by unfold validMode; omega)⟩
